import Mathlib

/-!
Verification of the bloom-filter / shard-conversion core of the zoekt
code-search repository, embedded shallowly in Lean 4.

Byte strings are modelled as `List Nat` with entries intended below 256;
Go's `uint32` arithmetic is modelled by explicit `% 2 ^ 32` where overflow
can occur.  Floating point enters the source in exactly one place (the
shrink-factor computation in `shrinkToSize`); it is abstracted as an
explicit parameter, and the theorems below quantify over it.
-/

set_option maxHeartbeats 2000000

namespace Zoekt

/-- ASCII lowercasing of a single byte, the action of Go's `bytes.ToLower`
on the ASCII bytes that word fragments consist of. -/
def toLowerByte (c : Nat) : Nat := if 65 ≤ c ∧ c ≤ 90 then c + 32 else c

/-- `bloomHashMinWordLength` from bloom.go. -/
def bloomHashMinWordLength : Nat := 4

/-- The byte condition used inside `initBloomWordTab` in bloom.go:
`x == '_' || 'a' <= x && x <= 'z' || 'A' <= x && x < 'Z' || '0' <= x && x <= '9'`.
Note the strict `x < 'Z'` taken verbatim from the source. -/
def bloomWordCond (x : Nat) : Bool :=
  x == 95 || (97 ≤ x && x ≤ 122) || (65 ≤ x && x < 90) || (48 ≤ x && x ≤ 57)

/-- `initBloomWordTab` from bloom.go: the 256-bit table, stored as four
64-bit words, marking the bytes accepted by `bloomWordCond`. -/
def initBloomWordTab : List Nat :=
  (List.range 128).foldl
    (fun tab x =>
      if bloomWordCond x then
        tab.set (x / 64) (tab.getD (x / 64) 0 ||| (1 <<< (x % 64)))
      else tab)
    [0, 0, 0, 0]

/-- `bloomWordTab` from bloom.go. -/
def bloomWordTab : List Nat := initBloomWordTab

/-- The table lookup `bloomWordTab[c/64]&(1<<(c%64)) != 0` used by
`findNextWord` in bloom.go. -/
def wordTabHit (c : Nat) : Bool :=
  bloomWordTab.getD (c / 64) 0 &&& (1 <<< (c % 64)) != 0

/-- Go slice `s[i:j]` of a byte string. -/
def goSlice (s : List Nat) (i j : Nat) : List Nat := (s.take j).drop i

/-- The "skip non-word bytes" loop of `findNextWord`: the first index `≥ i`
holding a word byte (or the length of the input). -/
def skipNonWord (inp : List Nat) (i : Nat) : Nat :=
  i + ((inp.drop i).takeWhile (fun c => !wordTabHit c)).length

/-- The "count length of \\w+ section" loop of `findNextWord`: the first
index `≥ i` holding a non-word byte (or the length of the input). -/
def scanWord (inp : List Nat) (i : Nat) : Nat :=
  i + ((inp.drop i).takeWhile (fun c => wordTabHit c)).length

theorem takeWhile_len_le (p : Nat → Bool) (l : List Nat) :
    (l.takeWhile p).length ≤ l.length := by
  induction l with
  | nil => simp
  | cons a t ih =>
    simp only [List.takeWhile]
    split
    · simpa using Nat.succ_le_succ ih
    · simp

theorem skipNonWord_le_length {inp : List Nat} {i : Nat} (h : i ≤ inp.length) :
    skipNonWord inp i ≤ inp.length := by
  have := takeWhile_len_le (fun c => !wordTabHit c) (inp.drop i)
  simp only [skipNonWord]
  have hlen := List.length_drop i inp
  omega

theorem scanWord_le_length {inp : List Nat} {i : Nat} (h : i ≤ inp.length) :
    scanWord inp i ≤ inp.length := by
  have := takeWhile_len_le (fun c => wordTabHit c) (inp.drop i)
  simp only [scanWord]
  have hlen := List.length_drop i inp
  omega

theorem lt_scanWord_skipNonWord {inp : List Nat} {i : Nat} (h : i < inp.length) :
    i < scanWord inp (skipNonWord inp i) := by
  rcases Nat.eq_zero_or_pos ((inp.drop i).takeWhile (fun c => !wordTabHit c)).length
    with h0 | h0
  · -- the byte at `i` is a word byte, so the word scan advances
    have hdrop : inp.drop i = inp[i] :: inp.drop (i + 1) := List.drop_eq_getElem_cons h
    have hw : wordTabHit inp[i] = true := by
      by_contra hw
      rw [hdrop] at h0
      simp only [List.takeWhile] at h0
      rw [Bool.not_eq_true] at hw
      simp [hw] at h0
    have hskip : skipNonWord inp i = i := by simp [skipNonWord, h0]
    rw [hskip]
    have : (inp.drop i).takeWhile (fun c => wordTabHit c) =
        inp[i] :: (inp.drop (i + 1)).takeWhile (fun c => wordTabHit c) := by
      rw [hdrop]
      simp [List.takeWhile, hw]
    simp only [scanWord, this, List.length_cons]
    omega
  · have : i < skipNonWord inp i := by simp only [skipNonWord]; omega
    have h2 : skipNonWord inp i ≤ scanWord inp (skipNonWord inp i) := by
      simp only [scanWord]; omega
    omega

/-- `findNextWord` from bloom.go: starting at `i`, skip non-word bytes,
scan a maximal run of word bytes, skip it if shorter than
`bloomHashMinWordLength`, otherwise return the end index and the
lowercased fragment; at the end of input return `(i, none)`. -/
def findNextWord (i : Nat) (inp : List Nat) : Nat × Option (List Nat) :=
  if h : i < inp.length then
    let ws := skipNonWord inp i
    let we := scanWord inp ws
    if we - ws < bloomHashMinWordLength then
      findNextWord we inp
    else
      (we, some ((goSlice inp ws we).map toLowerByte))
  else (i, none)
termination_by inp.length - i
decreasing_by
  have := lt_scanWord_skipNonWord h
  omega

/-- The Castagnoli polynomial (reversed representation) used by
`crc32.MakeTable(crc32.Castagnoli)`. -/
def crc32cPoly : Nat := 0x82F63B78

/-- One bit step of the reflected CRC-32C computation. -/
def crc32cRound (crc : Nat) : Nat :=
  if crc &&& 1 == 1 then (crc >>> 1) ^^^ crc32cPoly else crc >>> 1

/-- Absorb one byte into a reflected CRC-32C state. -/
def crc32cByte (crc b : Nat) : Nat := crc32cRound^[8] (crc ^^^ (b % 256))

/-- `crc32.Checksum(data, crcTab)` with the Castagnoli table:
reflected CRC-32C of a byte string. -/
def crc32c (data : List Nat) : Nat :=
  (data.foldl crc32cByte 0xFFFFFFFF) ^^^ 0xFFFFFFFF

set_option maxRecDepth 8192 in
example : crc32c [49, 50, 51, 52, 53, 54, 55, 56, 57] = 0xE3069283 := by decide

/-- The digit test `'0' <= s[i] && s[i] <= '9'` from the hashers. -/
def digitByte (c : Nat) : Bool := 48 ≤ c && c ≤ 57

/-- Truncation to Go's `uint32`. -/
def u32 (x : Nat) : Nat := x % 2 ^ 32

/-- The start indices enumerated by `for i := 0; i <= len(s)-4; i++`
(with Go `int` arithmetic, so no iterations when `len(s) < 4`). -/
def wordStarts (s : List Nat) : List Nat :=
  if s.length < 4 then [] else List.range (s.length - 3)

/-- The end indices enumerated by `for j := i + 4; j < i+8 && j <= len(s); j++`
in `bloomHasherCRCBlocked64B8K3`. -/
def probeJs (s : List Nat) (i : Nat) : List Nat :=
  (List.range' (i + 4) 4).filter (fun j => j ≤ s.length)

/-- The probes emitted by `bloomHasherCRCBlocked64B8K3` for a single word
fragment `s`: per non-digit start `i`, block key `crc32c(s[i:i+4]) * 512`
(as `uint32`), then for each `j` three probes from `h = crc32c(s[i:j])`. -/
def wordProbes (s : List Nat) : List Nat :=
  (wordStarts s).flatMap (fun i =>
    if digitByte (s.getD i 0) then []
    else
      let base := u32 (crc32c (goSlice s i (i + 4)) * 512)
      (probeJs s i).flatMap (fun j =>
        let h := crc32c (goSlice s i j)
        [base ||| h % 512, base ||| (h >>> 9) % 512, base ||| (h >>> 18) % 512]))

theorem findNextWord_eval_end (i : Nat) (inp : List Nat) (hi : ¬ i < inp.length) :
    findNextWord i inp = (i, none) := by
  rw [findNextWord, dif_neg hi]

theorem findNextWord_eval_skip (i : Nat) (inp : List Nat) (hi : i < inp.length)
    (hshort : scanWord inp (skipNonWord inp i) - skipNonWord inp i < bloomHashMinWordLength) :
    findNextWord i inp = findNextWord (scanWord inp (skipNonWord inp i)) inp := by
  conv_lhs => rw [findNextWord]
  rw [dif_pos hi, if_pos hshort]

theorem findNextWord_eval_word (i : Nat) (inp : List Nat) (hi : i < inp.length)
    (hlong : ¬ scanWord inp (skipNonWord inp i) - skipNonWord inp i < bloomHashMinWordLength) :
    findNextWord i inp =
      (scanWord inp (skipNonWord inp i),
        some ((goSlice inp (skipNonWord inp i) (scanWord inp (skipNonWord inp i))).map
          toLowerByte)) := by
  rw [findNextWord, dif_pos hi, if_neg hlong]

theorem findNextWord_fst_gt (inp : List Nat) :
    ∀ i, i < inp.length → i < (findNextWord i inp).1 := by
  have H : ∀ n i, inp.length - i ≤ n → i < inp.length → i < (findNextWord i inp).1 := by
    intro n
    induction n with
    | zero => intro i h1 h2; omega
    | succ n ih =>
      intro i h1 h2
      rw [findNextWord]
      simp only [h2, dif_pos]
      have hlt := lt_scanWord_skipNonWord h2
      split
      · rcases Nat.lt_or_ge (scanWord inp (skipNonWord inp i)) inp.length with hc | hc
        · have := ih (scanWord inp (skipNonWord inp i)) (by omega) hc
          omega
        · rw [findNextWord]
          simp only [Nat.not_lt.mpr hc, dif_neg, not_lt.mpr hc]
          simpa using hlt
      · simpa using hlt
  intro i hi
  exact H (inp.length - i) i le_rfl hi

/-- The fragment-iteration loop `for i := 0; i < len(in); { i, s = findNextWord(i, in); ... }`
shared by the hashers, accumulating the per-fragment probes. -/
def hasherLoop (inp : List Nat) (i : Nat) : List Nat :=
  if h : i < inp.length then
    (match (findNextWord i inp).2 with
      | some s => wordProbes s
      | none => []) ++ hasherLoop inp (findNextWord i inp).1
  else []
termination_by inp.length - i
decreasing_by
  have := findNextWord_fst_gt inp i h
  omega

/-- `bloomHasherCRCBlocked64B8K3` from bloom.go, the default hasher. -/
def bloomHasherCRCBlocked64B8K3 (inp : List Nat) : List Nat := hasherLoop inp 0

/-- The same fragment-iteration loop, collecting the fragments themselves. -/
def wordsLoop (inp : List Nat) (i : Nat) : List (List Nat) :=
  if h : i < inp.length then
    (match (findNextWord i inp).2 with
      | some s => [s]
      | none => []) ++ wordsLoop inp (findNextWord i inp).1
  else []
termination_by inp.length - i
decreasing_by
  have := findNextWord_fst_gt inp i h
  omega

/-- The word fragments of an input, in order of appearance. -/
def bloomWords (inp : List Nat) : List (List Nat) := wordsLoop inp 0

theorem hasherLoop_eq_flatMap (inp : List Nat) :
    ∀ i, hasherLoop inp i = (wordsLoop inp i).flatMap wordProbes := by
  have H : ∀ n i, inp.length - i ≤ n →
      hasherLoop inp i = (wordsLoop inp i).flatMap wordProbes := by
    intro n
    induction n with
    | zero =>
      intro i h1
      rw [hasherLoop, wordsLoop]
      have : ¬ i < inp.length := by omega
      simp [this]
    | succ n ih =>
      intro i h1
      rw [hasherLoop, wordsLoop]
      by_cases h : i < inp.length
      · have hgt := findNextWord_fst_gt inp i h
        have := ih (findNextWord i inp).1 (by omega)
        simp only [h, dif_pos, this]
        cases (findNextWord i inp).2 <;> simp
      · simp [h]
  intro i
  exact H (inp.length - i) i le_rfl

theorem bloomHasher_eq_flatMap (inp : List Nat) :
    bloomHasherCRCBlocked64B8K3 inp = (bloomWords inp).flatMap wordProbes :=
  hasherLoop_eq_flatMap inp 0

/-- The hasher functions registered in `bloomHasherIds` / `bloomHashers`
in bloom.go.  Only `bloomHasherCRCBlocked64B8K3` (id 1) is registered;
Lean functions have no pointer identity, so the registered hashers are
carried as an enumeration. -/
inductive BloomHasherKind where
  | crcBlocked64B8K3
deriving DecidableEq

/-- The hash function denoted by a registered hasher. -/
def hasherFn : BloomHasherKind → List Nat → List Nat
  | .crcBlocked64B8K3 => bloomHasherCRCBlocked64B8K3

/-- The id assigned in `bloomHasherIds`. -/
def hasherId : BloomHasherKind → Nat
  | .crcBlocked64B8K3 => 1

/-- `bloomHashers` from bloom.go. -/
def bloomHashers : List BloomHasherKind := [.crcBlocked64B8K3]

/-- The `bloom` struct from bloom.go. -/
structure Bloom where
  hasher : BloomHasherKind
  bits : List Nat
deriving DecidableEq

/-- `bloomSizeBase` from bloom.go: the least common multiple of 1..18. -/
def bloomSizeBase : Nat := 12252240

/-- `makeBloomFilterEmpty` from bloom.go. -/
def makeBloomFilterEmpty : Bloom :=
  ⟨.crcBlocked64B8K3, List.replicate bloomSizeBase 0⟩

/-- The body of `(*bloom).add` on the raw byte array:
`b.bits[int(x/8)%len(b.bits)] |= 1 << (x % 8)` for each probe `x`. -/
def addList (bits : List Nat) (xs : List Nat) : List Nat :=
  xs.foldl
    (fun bs x => bs.set ((x / 8) % bs.length) (bs.getD ((x / 8) % bs.length) 0 ||| (1 <<< (x % 8))))
    bits

/-- `(*bloom).add` from bloom.go. -/
def Bloom.add (b : Bloom) (xs : List Nat) : Bloom :=
  { b with bits := addList b.bits xs }

/-- `(*bloom).addBytes` from bloom.go. -/
def Bloom.addBytes (b : Bloom) (data : List Nat) : Bloom :=
  b.add (hasherFn b.hasher data)

/-- `(*bloom).maybeHas` from bloom.go: true iff every probe's bit is set. -/
def Bloom.maybeHas (b : Bloom) (xs : List Nat) : Bool :=
  xs.all (fun x => b.bits.getD ((x / 8) % b.bits.length) 0 &&& (1 <<< (x % 8)) != 0)

/-- `(*bloom).maybeHasBytes` from bloom.go. -/
def Bloom.maybeHasBytes (b : Bloom) (xs : List Nat) : Bool :=
  b.maybeHas (hasherFn b.hasher xs)

/-- `bits.OnesCount8`: the number of set bits among the low 8 bits. -/
def onesCount8 (x : Nat) : Nat :=
  ∑ k ∈ Finset.range 8, if x.testBit k then 1 else 0

/-- The total bit count summed by `(*bloom).load`. -/
def countOnes (bits : List Nat) : Nat := (bits.map onesCount8).sum

/-- `(*bloom).load` from bloom.go: the fraction of set bits, as an exact
rational (the source computes this quotient in `float64`). -/
def Bloom.load (b : Bloom) : ℚ :=
  (countOnes b.bits : ℚ) / ((b.bits.length : ℚ) * 8)

/-- The `for factor > 0 && len(b.bits)%factor != 0 { factor-- }` loop of
`shrinkToSize`: decrement until the factor divides `len` (or hits 0). -/
def adjustFactor (len : Nat) : Nat → Nat
  | 0 => 0
  | f + 1 => if len % (f + 1) ≠ 0 then adjustFactor len f else f + 1

/-- The OR-ing loop of `shrinkToSize`: for each input byte in order,
`out[j] |= byte` with `j` cycling through the output positions. -/
def shrinkOrLoop : List Nat → List Nat → Nat → List Nat
  | [], out, _ => out
  | x :: xs, out, j =>
      shrinkOrLoop xs (out.set j (out.getD j 0 ||| x)) (if j + 1 ≥ out.length then 0 else j + 1)

/-- `(*bloom).shrinkToSize` from bloom.go, with the floating-point factor
abstracted.  The source computes `factor := len(b.bits)` and overwrites it
with `int(math.Log(1-target) / math.Log(1-b.load()))` whenever the divisor
is nonzero, i.e. whenever the filter has any set bit; that float quotient
is not representable exactly, so it is taken here as the parameter
`logFactor`, and the theorems below hold for every value of it.  The
`target <= 0 || target >= 1` early return is omitted: every claim under
verification has `0 < target < 1`. -/
def Bloom.shrinkToSizeF (b : Bloom) (logFactor : Nat) : Bloom :=
  let factor := adjustFactor b.bits.length
    (if countOnes b.bits = 0 then b.bits.length else logFactor)
  if factor ≤ 1 then b
  else ⟨b.hasher, shrinkOrLoop b.bits (List.replicate (b.bits.length / factor) 0) 0⟩

/-- `(*bloom).GobEncode` from bloom.go: version byte 1, hasher id, raw bits. -/
def Bloom.gobEncode (b : Bloom) : List Nat :=
  1 :: hasherId b.hasher :: b.bits

/-- `(*bloom).GobDecode` from bloom.go. -/
def gobDecode (buf : List Nat) : Except String Bloom :=
  if buf.length < 2 ∨ buf.getD 0 0 ≠ 1 then
    .error "invalid bloom filter encoding (wrong size/version)"
  else if buf.getD 1 0 = 0 ∨ bloomHashers.length < buf.getD 1 0 then
    .error "invalid bloom filter encoding (unknown hasher type)"
  else
    .ok ⟨bloomHashers.getD (buf.getD 1 0 - 1) .crcBlocked64B8K3, buf.drop 2⟩

theorem getD_set_self {l : List Nat} {i v : Nat} (h : i < l.length) :
    (l.set i v).getD i 0 = v := by
  simp [List.getD_eq_getElem?_getD, List.getElem?_set_self, h]

theorem getD_set_ne {l : List Nat} {i j v : Nat} (h : i ≠ j) :
    (l.set i v).getD j 0 = l.getD j 0 := by
  rw [List.getD_eq_getElem?_getD, List.getElem?_set_ne h, ← List.getD_eq_getElem?_getD]

theorem and_shiftLeft_ne_zero (n k : Nat) :
    (n &&& (1 <<< k) != 0) = n.testBit k := by
  rw [Nat.shiftLeft_eq, one_mul, Nat.and_two_pow]
  cases h : n.testBit k <;> simp [h]

/-- Whether probe `x`'s bit is set in a raw bit array, exactly as `maybeHas`
reads it: bit `x % 8` of byte `(x/8) mod len`. -/
def bitAt (bits : List Nat) (x : Nat) : Bool :=
  (bits.getD ((x / 8) % bits.length) 0).testBit (x % 8)

theorem maybeHas_iff_forall (b : Bloom) (xs : List Nat) :
    b.maybeHas xs = true ↔ ∀ x ∈ xs, bitAt b.bits x = true := by
  simp only [Bloom.maybeHas, List.all_eq_true, bitAt, and_shiftLeft_ne_zero]

theorem addList_length (xs bits : List Nat) : (addList bits xs).length = bits.length := by
  induction xs generalizing bits with
  | nil => rfl
  | cons x t ih =>
    simp only [addList, List.foldl_cons] at ih ⊢
    rw [ih, List.length_set]

theorem addList_mono (xs bits : List Nat) (q k : Nat)
    (h : (bits.getD q 0).testBit k = true) :
    ((addList bits xs).getD q 0).testBit k = true := by
  induction xs generalizing bits with
  | nil => exact h
  | cons x t ih =>
    simp only [addList, List.foldl_cons] at ih ⊢
    apply ih
    by_cases hq : (x / 8) % bits.length = q
    · rcases Nat.lt_or_ge q bits.length with hlt | hge
      · rw [hq, getD_set_self (hq ▸ hlt), Nat.testBit_or, h]
        simp
      · have : bits.getD q 0 = 0 := by
          apply List.getD_eq_default
          omega
        rw [this] at h
        simp [Nat.testBit] at h
    · rw [getD_set_ne hq]
      exact h

theorem addList_sets (xs bits : List Nat) (x : Nat)
    (hlen : 0 < bits.length) (hx : x ∈ xs) :
    ((addList bits xs).getD ((x / 8) % bits.length) 0).testBit (x % 8) = true := by
  induction xs generalizing bits with
  | nil => cases hx
  | cons y t ih =>
    simp only [addList, List.foldl_cons] at ih ⊢
    rcases List.mem_cons.mp hx with rfl | hmem
    · -- the head write sets the bit; the tail preserves it
      apply addList_mono
      have hp : (x / 8) % bits.length < bits.length := Nat.mod_lt _ hlen
      rw [getD_set_self hp, Nat.testBit_or]
      have hbit : (1 <<< (x % 8)).testBit (x % 8) = true := by
        rw [Nat.shiftLeft_eq, one_mul]
        simp [Nat.testBit_two_pow_self]
      rw [hbit]
      simp
    · have := ih
        (bits.set ((y / 8) % bits.length) (bits.getD ((y / 8) % bits.length) 0 ||| 1 <<< (y % 8)))
        (by rw [List.length_set]; exact hlen) hmem
      rwa [List.length_set] at this

theorem Bloom.add_hasher (b : Bloom) (xs : List Nat) : (b.add xs).hasher = b.hasher := rfl

theorem Bloom.addBytes_hasher (b : Bloom) (data : List Nat) :
    (b.addBytes data).hasher = b.hasher := rfl

theorem Bloom.addBytes_length (b : Bloom) (data : List Nat) :
    (b.addBytes data).bits.length = b.bits.length :=
  addList_length _ _

theorem foldl_addBytes_hasher (keys : List (List Nat)) (b : Bloom) :
    (keys.foldl Bloom.addBytes b).hasher = b.hasher := by
  induction keys generalizing b with
  | nil => rfl
  | cons k t ih => rw [List.foldl_cons, ih]

theorem foldl_addBytes_length (keys : List (List Nat)) (b : Bloom) :
    (keys.foldl Bloom.addBytes b).bits.length = b.bits.length := by
  induction keys generalizing b with
  | nil => rfl
  | cons k t ih =>
    simp only [List.foldl_cons]
    rw [ih, Bloom.addBytes_length]

theorem foldl_addBytes_mono (keys : List (List Nat)) (b : Bloom) (q k : Nat)
    (h : (b.bits.getD q 0).testBit k = true) :
    (((keys.foldl Bloom.addBytes b).bits.getD q 0)).testBit k = true := by
  induction keys generalizing b with
  | nil => exact h
  | cons key t ih =>
    simp only [List.foldl_cons]
    exact ih _ (addList_mono _ _ _ _ h)

/-- Every key folded into a filter via `addBytes` has all its probe bits set. -/
theorem foldl_addBytes_sets (keys : List (List Nat)) (b : Bloom) (key : List Nat)
    (hlen : 0 < b.bits.length) (hmem : key ∈ keys) :
    (keys.foldl Bloom.addBytes b).maybeHasBytes key = true := by
  rw [Bloom.maybeHasBytes, foldl_addBytes_hasher, maybeHas_iff_forall]
  intro x hx
  induction keys generalizing b with
  | nil => cases hmem
  | cons key' t ih =>
    simp only [List.foldl_cons]
    rcases List.mem_cons.mp hmem with rfl | hmem'
    · rw [bitAt, foldl_addBytes_length]
      apply foldl_addBytes_mono
      rw [Bloom.addBytes, Bloom.add, addList_length]
      exact addList_sets _ _ _ hlen hx
    · exact ih (b.addBytes key') (by rw [Bloom.addBytes_length]; exact hlen) hmem' hx

/-- The OR accumulated into output position `p` by the cyclic shrink loop
over input `xs`, starting at output cursor `j`, with `m` output positions. -/
def cycOr : List Nat → Nat → Nat → Nat → Nat
  | [], _, _, _ => 0
  | x :: xs, m, j, p =>
      (if j = p then x else 0) ||| cycOr xs m (if j + 1 ≥ m then 0 else j + 1) p

theorem shrinkOrLoop_length (xs : List Nat) :
    ∀ out j, (shrinkOrLoop xs out j).length = out.length := by
  induction xs with
  | nil => intro out j; rfl
  | cons x t ih =>
    intro out j
    simp only [shrinkOrLoop]
    rw [ih, List.length_set]

theorem shrinkOrLoop_getD (xs : List Nat) :
    ∀ out j p, p < out.length →
      (shrinkOrLoop xs out j).getD p 0 = out.getD p 0 ||| cycOr xs out.length j p := by
  induction xs with
  | nil => intro out j p hp; simp [shrinkOrLoop, cycOr]
  | cons x t ih =>
    intro out j p hp
    simp only [shrinkOrLoop, cycOr]
    have hlen : (out.set j (out.getD j 0 ||| x)).length = out.length := List.length_set ..
    rw [ih _ _ p (by rwa [hlen]), hlen]
    by_cases hj : j = p
    · subst hj
      rw [getD_set_self hp]
      simp [Nat.or_assoc]
    · rw [getD_set_ne hj]
      simp [hj]

theorem cycOr_testBit_of (xs : List Nat) :
    ∀ i j p k m, i < xs.length → j < m → (j + i) % m = p →
      (xs.getD i 0).testBit k = true → (cycOr xs m j p).testBit k = true := by
  induction xs with
  | nil => intro i j p k m h; simp at h
  | cons x t ih =>
    intro i j p k m hi hj hp hbit
    have hm : 0 < m := by omega
    simp only [cycOr, Nat.testBit_or]
    cases i with
    | zero =>
      have hjp : j = p := by
        rw [Nat.add_zero, Nat.mod_eq_of_lt hj] at hp
        exact hp
      subst hjp
      simp only [List.getD_cons_zero] at hbit
      simp [hbit]
    | succ i' =>
      have hnext : (if j + 1 ≥ m then 0 else j + 1) = (j + 1) % m := by
        rcases Nat.lt_or_ge (j + 1) m with h1 | h1
        · rw [if_neg (by omega), Nat.mod_eq_of_lt h1]
        · have : j + 1 = m := by omega
          rw [if_pos (by omega), this, Nat.mod_self]
      have hrec : (cycOr t m (if j + 1 ≥ m then 0 else j + 1) p).testBit k = true := by
        apply ih i' _ p k m (by simpa using hi) (by rw [hnext]; exact Nat.mod_lt _ hm)
        · rw [hnext, Nat.mod_add_mod]
          rw [← hp]
          ring_nf
        · simpa using hbit
      rw [hrec]
      simp

theorem adjustFactor_dvd (len : Nat) :
    ∀ f, adjustFactor len f = 0 ∨ len % adjustFactor len f = 0 := by
  intro f
  induction f with
  | zero => left; rfl
  | succ f ih =>
    rw [adjustFactor]
    split
    · exact ih
    · right; omega

theorem adjustFactor_eq_of_ge (len : Nat) (hlen : 0 < len) :
    ∀ f, len ≤ f → adjustFactor len f = len := by
  intro f
  induction f with
  | zero => intro h; omega
  | succ f ih =>
    intro h
    rw [adjustFactor]
    rcases Nat.lt_or_ge len (f + 1) with h1 | h1
    · rw [if_pos]
      · exact ih (by omega)
      · have : len % (f + 1) = len := Nat.mod_eq_of_lt h1
        omega
    · have : len = f + 1 := by omega
      rw [this, Nat.mod_self]
      simp

/-- Shrinking (for any abstracted log-factor) never unsets a probe's bit:
`maybeHas` answers are preserved from the input filter to the shrunk one. -/
theorem shrink_preserves_maybeHas (b : Bloom) (fl : Nat) (xs : List Nat)
    (h : b.maybeHas xs = true) :
    (b.shrinkToSizeF fl).maybeHas xs = true := by
  rw [Bloom.shrinkToSizeF]
  set factor := adjustFactor b.bits.length
    (if countOnes b.bits = 0 then b.bits.length else fl) with hfac
  by_cases hf : factor ≤ 1
  · rw [if_pos hf]; exact h
  · rw [if_neg hf]
    have hdvd : b.bits.length % factor = 0 := by
      rcases adjustFactor_dvd b.bits.length
        (if countOnes b.bits = 0 then b.bits.length else fl) with h0 | h0
      · omega
      · exact h0
    have hlenpos : 0 < b.bits.length := by
      by_contra hc
      have hz : b.bits.length = 0 := by omega
      have : b.bits = [] := List.eq_nil_of_length_eq_zero hz
      rw [hfac, this] at hf
      simp [countOnes, adjustFactor] at hf
    have hfacpos : 0 < factor := by omega
    have hfle : factor ≤ b.bits.length := Nat.le_of_dvd hlenpos (Nat.dvd_of_mod_eq_zero hdvd)
    set m := b.bits.length / factor with hm
    have hmmul : m * factor = b.bits.length := Nat.div_mul_cancel (Nat.dvd_of_mod_eq_zero hdvd)
    have hmpos : 0 < m := by
      rcases Nat.eq_zero_or_pos m with h0 | h0
      · rw [h0, zero_mul] at hmmul; omega
      · exact h0
    have hmdvd : m ∣ b.bits.length := ⟨factor, hmmul.symm⟩
    rw [maybeHas_iff_forall] at h ⊢
    intro x hx
    have hbit := h x hx
    rw [bitAt] at hbit ⊢
    have houtlen : (shrinkOrLoop b.bits (List.replicate m 0) 0).length = m := by
      rw [shrinkOrLoop_length, List.length_replicate]
    simp only [houtlen]
    have hp : (x / 8) % m < m := Nat.mod_lt _ hmpos
    rw [shrinkOrLoop_getD _ _ _ _ (by rwa [List.length_replicate]), List.length_replicate]
    have hrep : (List.replicate m 0).getD ((x / 8) % m) 0 = 0 := by
      rw [List.getD_eq_getElem?_getD]
      simp [List.getElem?_replicate, hp]
    rw [hrep, Nat.zero_or]
    have harg : (0 + (x / 8) % b.bits.length) % m = (x / 8) % m := by
      rw [Nat.zero_add, Nat.mod_mod_of_dvd _ hmdvd]
    exact cycOr_testBit_of b.bits ((x / 8) % b.bits.length) 0 _ _ m
      (Nat.mod_lt _ hlenpos) hmpos harg hbit

theorem Bloom.shrinkToSizeF_hasher (b : Bloom) (fl : Nat) :
    (b.shrinkToSizeF fl).hasher = b.hasher := by
  rw [Bloom.shrinkToSizeF]

/-- C1: shrinking introduces no false negatives.  For every starting filter
whose byte length divides `bloomSizeBase`, every sequence of keys added via
`addBytes`, and every abstracted shrink factor (covering every value the
floating-point `log` quotient can produce for any target in `(0,1)`), each
added key still answers `maybeHasBytes = true` after `shrinkToSize`. -/
theorem shrinkToSize_no_false_negatives (b0 : Bloom) (keys : List (List Nat))
    (key : List Nat) (fl : Nat) (hmem : key ∈ keys)
    (hL : b0.bits.length ∣ bloomSizeBase) :
    ((keys.foldl Bloom.addBytes b0).shrinkToSizeF fl).maybeHasBytes key = true := by
  have hlen : 0 < b0.bits.length := by
    rcases Nat.eq_zero_or_pos b0.bits.length with h0 | h0
    · rw [h0] at hL
      have := Nat.eq_zero_of_zero_dvd hL
      simp [bloomSizeBase] at this
    · exact h0
  have hset := foldl_addBytes_sets keys b0 key hlen hmem
  rw [Bloom.maybeHasBytes, Bloom.shrinkToSizeF_hasher, foldl_addBytes_hasher]
  rw [Bloom.maybeHasBytes, foldl_addBytes_hasher] at hset
  exact shrink_preserves_maybeHas _ fl _ hset

/-- Witness for C1 at a concrete 16-byte filter holding the key "some". -/
theorem shrinkToSize_no_false_negatives_witness :
    [115, 111, 109, 101] ∈ [[115, 111, 109, 101]] ∧
    (List.replicate 16 0).length ∣ bloomSizeBase ∧
    (((([[115, 111, 109, 101]] : List (List Nat)).foldl Bloom.addBytes
        ⟨.crcBlocked64B8K3, List.replicate 16 0⟩).shrinkToSizeF 4).maybeHasBytes
      [115, 111, 109, 101] = true) :=
  ⟨by simp, by decide,
    shrinkToSize_no_false_negatives ⟨.crcBlocked64B8K3, List.replicate 16 0⟩ _ _ 4
      (by simp) (by decide)⟩

/-- A two-byte filter with exactly one set bit, used to exhibit that
shrinking raises the load factor. -/
def bloomC5 : Bloom := ⟨.crcBlocked64B8K3, [1, 0]⟩

/-- Counterexample to C5 as stated: shrinking `bloomC5` (shrink factor 10,
which is `⌊log(1-0.5)/log(1-1/16)⌋`, i.e. target load `0.5 ∈ (0,1)`)
yields load `1/8 > 1/16`, so `shrink(b).load ≤ b.load` is false. -/
theorem shrink_load_not_le :
    ¬ ((bloomC5.shrinkToSizeF 10).load ≤ bloomC5.load) := by
  have h1 : countOnes (bloomC5.shrinkToSizeF 10).bits = 1 := by decide
  have h2 : (bloomC5.shrinkToSizeF 10).bits.length = 1 := by decide
  have h3 : countOnes bloomC5.bits = 1 := by decide
  have h4 : bloomC5.bits.length = 2 := by decide
  rw [Bloom.load, Bloom.load, h1, h2, h3, h4]
  norm_num

theorem countOnes_eq_sum (l : List Nat) :
    countOnes l = ∑ p ∈ Finset.range l.length, onesCount8 (l.getD p 0) := by
  induction l with
  | nil => simp [countOnes]
  | cons a t ih =>
    simp only [countOnes, List.map_cons, List.sum_cons, List.length_cons] at ih ⊢
    rw [Finset.sum_range_succ']
    simp only [List.getD_cons_succ, List.getD_cons_zero]
    omega

theorem onesCount8_le_of_testBit_imp {x y : Nat}
    (h : ∀ k, x.testBit k = true → y.testBit k = true) :
    onesCount8 x ≤ onesCount8 y := by
  apply Finset.sum_le_sum
  intro k _
  by_cases hx : x.testBit k
  · rw [if_pos hx, if_pos (h k hx)]
  · rw [if_neg hx]
    split <;> omega

theorem sum_range_mul_mod (g : Nat → Nat) (m : Nat) :
    ∀ f, ∑ i ∈ Finset.range (m * f), g (i % m) = f * ∑ p ∈ Finset.range m, g p := by
  intro f
  induction f with
  | zero => simp
  | succ f ih =>
    rw [Nat.mul_succ, Finset.sum_range_add, ih]
    have : ∀ i ∈ Finset.range m, g ((m * f + i) % m) = g i := by
      intro i hi
      rw [Nat.mul_add_mod, Nat.mod_eq_of_lt (Finset.mem_range.mp hi)]
    rw [Finset.sum_congr rfl this]
    ring

/-- C5 amended: shrinking never lowers the load factor (for every value of
the abstracted shrink factor). -/
theorem shrink_load_ge (b : Bloom) (fl : Nat) :
    b.load ≤ (b.shrinkToSizeF fl).load := by
  rw [Bloom.shrinkToSizeF]
  set factor := adjustFactor b.bits.length
    (if countOnes b.bits = 0 then b.bits.length else fl) with hfac
  by_cases hf : factor ≤ 1
  · rw [if_pos hf]
  · rw [if_neg hf]
    have hdvd : b.bits.length % factor = 0 := by
      rcases adjustFactor_dvd b.bits.length
        (if countOnes b.bits = 0 then b.bits.length else fl) with h0 | h0
      · omega
      · exact h0
    have hlenpos : 0 < b.bits.length := by
      by_contra hc
      have hz : b.bits.length = 0 := by omega
      have : b.bits = [] := List.eq_nil_of_length_eq_zero hz
      rw [hfac, this] at hf
      simp [countOnes, adjustFactor] at hf
    have hfacpos : 0 < factor := by omega
    set m := b.bits.length / factor with hm
    have hmmul : m * factor = b.bits.length := Nat.div_mul_cancel (Nat.dvd_of_mod_eq_zero hdvd)
    have hmpos : 0 < m := by
      rcases Nat.eq_zero_or_pos m with h0 | h0
      · rw [h0, zero_mul] at hmmul; omega
      · exact h0
    have hmdvd : m ∣ b.bits.length := ⟨factor, hmmul.symm⟩
    set out := shrinkOrLoop b.bits (List.replicate m 0) 0 with hout
    have houtlen : out.length = m := by
      rw [hout, shrinkOrLoop_length, List.length_replicate]
    -- pointwise: each input byte is bitwise below its output slot
    have hpoint : ∀ i, i < b.bits.length →
        onesCount8 (b.bits.getD i 0) ≤ onesCount8 (out.getD (i % m) 0) := by
      intro i hi
      have hp : i % m < m := Nat.mod_lt _ hmpos
      have hgd : out.getD (i % m) 0 = cycOr b.bits m 0 (i % m) := by
        rw [hout, shrinkOrLoop_getD _ _ _ _ (by rwa [List.length_replicate]),
          List.length_replicate]
        have hrep : (List.replicate m 0).getD (i % m) 0 = 0 := by
          rw [List.getD_eq_getElem?_getD]
          simp [List.getElem?_replicate, hp]
        rw [hrep, Nat.zero_or]
      rw [hgd]
      apply onesCount8_le_of_testBit_imp
      intro k hk
      exact cycOr_testBit_of b.bits i 0 _ _ m hi hmpos (by rw [Nat.zero_add]) hk
    -- sum the pointwise bound and regroup by residue
    have hsum : countOnes b.bits ≤ factor * countOnes out := by
      rw [countOnes_eq_sum, countOnes_eq_sum, houtlen]
      calc ∑ p ∈ Finset.range b.bits.length, onesCount8 (b.bits.getD p 0)
          ≤ ∑ p ∈ Finset.range b.bits.length, onesCount8 (out.getD (p % m) 0) := by
            apply Finset.sum_le_sum
            intro p hp
            exact hpoint p (Finset.mem_range.mp hp)
        _ = factor * ∑ p ∈ Finset.range m, onesCount8 (out.getD p 0) := by
            rw [← hmmul]
            exact sum_range_mul_mod (fun p => onesCount8 (out.getD p 0)) m factor
    -- compare the two rational loads
    rw [Bloom.load, Bloom.load]
    simp only [houtlen]
    have hcast : (countOnes b.bits : ℚ) ≤ (factor : ℚ) * (countOnes out : ℚ) := by
      exact_mod_cast hsum
    have hmq : (0 : ℚ) ≤ (m : ℚ) := by positivity
    rw [div_le_div_iff (by exact_mod_cast by positivity) (by exact_mod_cast by positivity),
      ← hmmul]
    push_cast
    nlinarith [hcast, hmq]

theorem onesCount8_zero : onesCount8 0 = 0 := by decide

theorem countOnes_replicate_zero (n : Nat) : countOnes (List.replicate n 0) = 0 := by
  rw [countOnes, List.map_replicate, onesCount8_zero, List.sum_replicate]
  simp

theorem countOnes_ne_zero_of_testBit (l : List Nat) (q k : Nat) (hk : k < 8)
    (h : (l.getD q 0).testBit k = true) : countOnes l ≠ 0 := by
  have hq : q < l.length := by
    by_contra hc
    rw [List.getD_eq_default _ _ (by omega)] at h
    simp [Nat.zero_testBit] at h
  have h1 : 0 < onesCount8 (l.getD q 0) := by
    rw [onesCount8]
    apply Finset.sum_pos' (fun j _ => by positivity)
    exact ⟨k, Finset.mem_range.mpr hk, by rw [if_pos h]; omega⟩
  have h2 : onesCount8 (l.getD q 0) ≤ ∑ p ∈ Finset.range l.length, onesCount8 (l.getD p 0) :=
    Finset.single_le_sum (f := fun p => onesCount8 (l.getD p 0))
      (fun j _ => Nat.zero_le _) (Finset.mem_range.mpr hq)
  rw [countOnes_eq_sum]
  omega

set_option maxRecDepth 8192 in
/-- Evaluation of the default hasher on the word "some" (bytes
`[115, 111, 109, 101]`): one fragment, one start, one length, three probes. -/
theorem hasher_some_eval :
    bloomHasherCRCBlocked64B8K3 [115, 111, 109, 101] =
      [1795378085, 1795377856, 1795377773] := by
  have h1 : findNextWord 0 [115, 111, 109, 101] = (4, some [115, 111, 109, 101]) := by
    rw [findNextWord]; decide
  rw [bloomHasherCRCBlocked64B8K3, hasherLoop, h1, hasherLoop]
  decide

/-- C8: shrink edge cases.  (i) The empty filter of length `bloomSizeBase`
shrinks to one byte for every abstracted shrink factor (the source sets the
factor to the filter length when the load is zero, which is the case for
target 0.9999 on an empty filter).  (ii) The filter holding only "some"
shrinks to one byte for every abstracted factor `≥ bloomSizeBase`; the
factor the source computes for target 0.999 is
`⌊log(0.001)/log(1 - load)⌋ ≈ 2.26×10^8 ≥ bloomSizeBase`. -/
theorem bloom_shrink_edge_cases :
    (∀ fl, (makeBloomFilterEmpty.shrinkToSizeF fl).bits.length = 1) ∧
    (∀ fl, bloomSizeBase ≤ fl →
      ((makeBloomFilterEmpty.addBytes [115, 111, 109, 101]).shrinkToSizeF fl).bits.length = 1) := by
  have hlen : makeBloomFilterEmpty.bits.length = bloomSizeBase := by
    simp [makeBloomFilterEmpty]
  constructor
  · intro fl
    have hc : countOnes makeBloomFilterEmpty.bits = 0 := countOnes_replicate_zero _
    rw [Bloom.shrinkToSizeF, hc]
    simp only [eq_self_iff_true, if_true, hlen]
    rw [adjustFactor_eq_of_ge bloomSizeBase (by decide) bloomSizeBase le_rfl]
    rw [if_neg (by decide)]
    rw [shrinkOrLoop_length, List.length_replicate]
    decide
  · intro fl hfl
    have hlenpos : 0 < makeBloomFilterEmpty.bits.length := by rw [hlen]; decide
    have hbits2 : (makeBloomFilterEmpty.addBytes [115, 111, 109, 101]).bits =
        addList makeBloomFilterEmpty.bits [1795378085, 1795377856, 1795377773] := by
      rw [Bloom.addBytes]
      show addList _ (hasherFn _ _) = _
      rw [show hasherFn makeBloomFilterEmpty.hasher = bloomHasherCRCBlocked64B8K3 from rfl,
        hasher_some_eval]
    have hlen2 : (makeBloomFilterEmpty.addBytes [115, 111, 109, 101]).bits.length =
        bloomSizeBase := by
      rw [Bloom.addBytes_length, hlen]
    have hset := addList_sets [1795378085, 1795377856, 1795377773]
      makeBloomFilterEmpty.bits 1795378085 hlenpos (by simp)
    have hc2 : countOnes (makeBloomFilterEmpty.addBytes [115, 111, 109, 101]).bits ≠ 0 := by
      rw [hbits2]
      exact countOnes_ne_zero_of_testBit _ _ _ (Nat.mod_lt _ (by decide)) hset
    rw [Bloom.shrinkToSizeF]
    rw [if_neg hc2, hlen2]
    rw [adjustFactor_eq_of_ge _ (by decide) _ hfl]
    rw [if_neg (by decide)]
    rw [shrinkOrLoop_length, List.length_replicate]
    decide

/-- Witness for C8's second part at the concrete factor `bloomSizeBase`. -/
theorem bloom_shrink_edge_cases_witness :
    (makeBloomFilterEmpty.shrinkToSizeF 5).bits.length = 1 ∧
    bloomSizeBase ≤ bloomSizeBase ∧
    ((makeBloomFilterEmpty.addBytes [115, 111, 109, 101]).shrinkToSizeF
      bloomSizeBase).bits.length = 1 :=
  ⟨bloom_shrink_edge_cases.1 5, le_rfl, bloom_shrink_edge_cases.2 bloomSizeBase le_rfl⟩

/-- The per-fragment probe list exactly as C4 words it: for each non-digit
start `i`, block key `crc32c(s[i..i+4]) * 512`, and probe hashes
`h = crc32c(s[i..i+l])` for the lengths `l ∈ {5,6,7,8}` that fit. -/
def wordProbesClaimed (s : List Nat) : List Nat :=
  (wordStarts s).flatMap (fun i =>
    if digitByte (s.getD i 0) then []
    else
      let base := u32 (crc32c (goSlice s i (i + 4)) * 512)
      ((([5, 6, 7, 8] : List Nat).filter (fun l => i + l ≤ s.length)).map (fun l => i + l)).flatMap
        (fun j =>
          let h := crc32c (goSlice s i j)
          [base ||| h % 512, base ||| (h >>> 9) % 512, base ||| (h >>> 18) % 512]))

/-- The same probe list with the amended length range `l ∈ {4,5,6,7}`. -/
def wordProbesAmended (s : List Nat) : List Nat :=
  (wordStarts s).flatMap (fun i =>
    if digitByte (s.getD i 0) then []
    else
      let base := u32 (crc32c (goSlice s i (i + 4)) * 512)
      ((([4, 5, 6, 7] : List Nat).filter (fun l => i + l ≤ s.length)).map (fun l => i + l)).flatMap
        (fun j =>
          let h := crc32c (goSlice s i j)
          [base ||| h % 512, base ||| (h >>> 9) % 512, base ||| (h >>> 18) % 512]))

set_option maxRecDepth 8192 in
/-- Counterexample to C4 as stated: on the fragment "some" the default
hasher emits three probes (its inner loop starts at slice length 4), while
the claimed length range 5..8 yields none. -/
theorem hasher_length_range_counterexample :
    bloomHasherCRCBlocked64B8K3 [115, 111, 109, 101] ≠
      (bloomWords [115, 111, 109, 101]).flatMap wordProbesClaimed := by
  have h1 : findNextWord 0 [115, 111, 109, 101] = (4, some [115, 111, 109, 101]) := by
    rw [findNextWord]; decide
  rw [hasher_some_eval, bloomWords, wordsLoop, h1, wordsLoop]
  decide

theorem probeJs_eq_amended (s : List Nat) (i : Nat) :
    probeJs s i = (([4, 5, 6, 7] : List Nat).filter (fun l => i + l ≤ s.length)).map
      (fun l => i + l) := by
  have hmf : ∀ (f : Nat → Nat) (p : Nat → Bool) (l : List Nat),
      (l.map f).filter p = (l.filter (fun x => p (f x))).map f := by
    intro f p l
    rw [List.filter_map]
    rfl
  rw [probeJs]
  have hr : List.range' (i + 4) 4 = ([4, 5, 6, 7] : List Nat).map (fun l => i + l) := by
    simp [List.range']
  rw [hr, hmf]

/-- C4 amended: the default hasher emits, for each word fragment, exactly
the claimed three probes per start and length, with the length range
corrected from 5..8 to 4..7 (the source hashes `s[i:j]` for
`j = i+4 .. min(i+7, len)`, so the block-key slice itself is hashed). -/
theorem hasher_probes_amended (inp : List Nat) :
    bloomHasherCRCBlocked64B8K3 inp = (bloomWords inp).flatMap wordProbesAmended := by
  rw [bloomHasher_eq_flatMap]
  have hw : ∀ s, wordProbes s = wordProbesAmended s := by
    intro s
    simp only [wordProbes, wordProbesAmended, probeJs_eq_amended]
  rw [funext hw]

/-- C6: bloom serialization.  Encoding is one version byte `1`, one
registered hasher-id byte, then the raw bits; decoding an encoded filter
restores it exactly, and decoding fails precisely on short buffers, wrong
versions, or unregistered hasher ids. -/
theorem gob_encode_decode :
    (∀ b : Bloom, b.gobEncode = 1 :: hasherId b.hasher :: b.bits ∧
      1 ≤ hasherId b.hasher ∧ hasherId b.hasher ≤ bloomHashers.length ∧
      gobDecode b.gobEncode = .ok b) ∧
    (∀ buf : List Nat, (∃ e, gobDecode buf = .error e) ↔
      (buf.length < 2 ∨ buf.getD 0 0 ≠ 1 ∨ buf.getD 1 0 = 0 ∨
        bloomHashers.length < buf.getD 1 0)) := by
  constructor
  · intro b
    refine ⟨rfl, ?_, ?_, ?_⟩
    · cases b.hasher; decide
    · cases b.hasher; decide
    · rcases b with ⟨h, bits⟩
      cases h
      simp [gobDecode, Bloom.gobEncode, hasherId, bloomHashers]
  · intro buf
    rw [gobDecode]
    by_cases h1 : buf.length < 2 ∨ buf.getD 0 0 ≠ 1
    · rw [if_pos h1]
      constructor
      · intro _
        tauto
      · intro _
        exact ⟨_, rfl⟩
    · rw [if_neg h1]
      by_cases h2 : buf.getD 1 0 = 0 ∨ bloomHashers.length < buf.getD 1 0
      · rw [if_pos h2]
        constructor
        · intro _
          tauto
        · intro _
          exact ⟨_, rfl⟩
      · rw [if_neg h2]
        constructor
        · rintro ⟨e, he⟩
          cases he
        · intro hc
          tauto

theorem takeWhile_pred (p : Nat → Bool) (l : List Nat) :
    ∀ t, t < (l.takeWhile p).length → p (l.getD t 0) = true := by
  induction l with
  | nil => simp
  | cons a tl ih =>
    intro t ht
    by_cases hpa : p a = true
    · cases t with
      | zero => simpa using hpa
      | succ t' =>
        simp only [List.getD_cons_succ]
        apply ih
        simp only [List.takeWhile, hpa, if_true, List.length_cons] at ht
        omega
    · simp only [List.takeWhile, hpa, Bool.false_eq_true, if_false, List.length_nil] at ht
      omega

theorem getD_drop_add (l : List Nat) (n m : Nat) :
    (l.drop n).getD m 0 = l.getD (n + m) 0 := by
  rw [List.getD_eq_getElem?_getD, List.getElem?_drop, ← List.getD_eq_getElem?_getD]

/-- If `findNextWord` returns a fragment, the input has a run of at least
four consecutive word bytes. -/
theorem findNextWord_snd_some (inp : List Nat) :
    ∀ i s, (findNextWord i inp).2 = some s →
      ∃ ws, ws + 4 ≤ inp.length ∧
        (wordTabHit (inp.getD ws 0) && wordTabHit (inp.getD (ws + 1) 0) &&
         wordTabHit (inp.getD (ws + 2) 0) && wordTabHit (inp.getD (ws + 3) 0)) = true := by
  have H : ∀ n i s, inp.length - i ≤ n → (findNextWord i inp).2 = some s →
      ∃ ws, ws + 4 ≤ inp.length ∧
        (wordTabHit (inp.getD ws 0) && wordTabHit (inp.getD (ws + 1) 0) &&
         wordTabHit (inp.getD (ws + 2) 0) && wordTabHit (inp.getD (ws + 3) 0)) = true := by
    intro n
    induction n with
    | zero =>
      intro i s hn h
      rw [findNextWord_eval_end i inp (by omega)] at h
      cases h
    | succ n ih =>
      intro i s hn h
      by_cases hi : i < inp.length
      · by_cases hshort :
          scanWord inp (skipNonWord inp i) - skipNonWord inp i < bloomHashMinWordLength
        · rw [findNextWord_eval_skip i inp hi hshort] at h
          have hgt := lt_scanWord_skipNonWord hi
          exact ih (scanWord inp (skipNonWord inp i)) s (by omega) h
        · set ws := skipNonWord inp i with hws
          have hwsle : ws ≤ inp.length := skipNonWord_le_length (Nat.le_of_lt hi)
          have hwele : scanWord inp ws ≤ inp.length := scanWord_le_length hwsle
          have hlen4 : 4 ≤ ((inp.drop ws).takeWhile (fun c => wordTabHit c)).length := by
            simp only [bloomHashMinWordLength, scanWord, hws] at hshort ⊢
            omega
          refine ⟨ws, ?_, ?_⟩
          · simp only [scanWord] at hwele
            omega
          · have hp : ∀ t, t < 4 → wordTabHit (inp.getD (ws + t) 0) = true := by
              intro t ht
              have := takeWhile_pred (fun c => wordTabHit c) (inp.drop ws) t (by omega)
              rwa [getD_drop_add] at this
            have h0 := hp 0 (by omega)
            have h1 := hp 1 (by omega)
            have h2 := hp 2 (by omega)
            have h3 := hp 3 (by omega)
            rw [Nat.add_zero] at h0
            rw [h0, h1, h2, h3]
            rfl
      · rw [findNextWord_eval_end i inp hi] at h
        cases h
  intro i s h
  exact H (inp.length - i) i s le_rfl h

/-- C10: inputs with no run of four consecutive word bytes hash to an empty
probe list, and `maybeHasBytes` answers true on them for every filter. -/
theorem no_word_run_probes_empty (b : Bloom) (inp : List Nat)
    (hrun : ∀ i < inp.length, i + 4 ≤ inp.length →
      (wordTabHit (inp.getD i 0) && wordTabHit (inp.getD (i + 1) 0) &&
       wordTabHit (inp.getD (i + 2) 0) && wordTabHit (inp.getD (i + 3) 0)) = false) :
    bloomHasherCRCBlocked64B8K3 inp = [] ∧ b.maybeHasBytes inp = true := by
  have hnone : ∀ i, (findNextWord i inp).2 = none := by
    intro i
    cases hs : (findNextWord i inp).2 with
    | none => rfl
    | some s =>
      obtain ⟨ws, hle, hbits⟩ := findNextWord_snd_some inp i s hs
      have := hrun ws (by omega) hle
      rw [this] at hbits
      cases hbits
  have hwl : ∀ n i, inp.length - i ≤ n → wordsLoop inp i = [] := by
    intro n
    induction n with
    | zero =>
      intro i hn
      rw [wordsLoop]
      have : ¬ i < inp.length := by omega
      simp [this]
    | succ n ih =>
      intro i hn
      rw [wordsLoop]
      by_cases hi : i < inp.length
      · have hgt := findNextWord_fst_gt inp i hi
        simp only [hi, dif_pos, hnone i]
        exact ih (findNextWord i inp).1 (by omega)
      · simp [hi]
  have hhasher : bloomHasherCRCBlocked64B8K3 inp = [] := by
    rw [bloomHasher_eq_flatMap, bloomWords, hwl inp.length 0 (by omega)]
    rfl
  refine ⟨hhasher, ?_⟩
  rcases b with ⟨hk, bits⟩
  cases hk
  rw [Bloom.maybeHasBytes]
  rw [show hasherFn BloomHasherKind.crcBlocked64B8K3 = bloomHasherCRCBlocked64B8K3 from rfl]
  rw [hhasher]
  rfl

/-- Witness for C10 at the input "a cd" (no word run of length 4). -/
theorem no_word_run_probes_empty_witness :
    (∀ i < ([97, 32, 99, 100] : List Nat).length, i + 4 ≤ ([97, 32, 99, 100] : List Nat).length →
      (wordTabHit (([97, 32, 99, 100] : List Nat).getD i 0) &&
       wordTabHit (([97, 32, 99, 100] : List Nat).getD (i + 1) 0) &&
       wordTabHit (([97, 32, 99, 100] : List Nat).getD (i + 2) 0) &&
       wordTabHit (([97, 32, 99, 100] : List Nat).getD (i + 3) 0)) = false) ∧
    bloomHasherCRCBlocked64B8K3 [97, 32, 99, 100] = [] ∧
    makeBloomFilterEmpty.maybeHasBytes [97, 32, 99, 100] = true := by
  refine ⟨by decide, ?_, ?_⟩
  · exact (no_word_run_probes_empty makeBloomFilterEmpty [97, 32, 99, 100] (by decide)).1
  · exact (no_word_run_probes_empty makeBloomFilterEmpty [97, 32, 99, 100] (by decide)).2

/-- `binary.PutUvarint` from encoding/binary, as used by `toDeltas`:
unsigned LEB128, low 7 bits per byte with continuation bit 0x80 while the
value is at least 0x80 (`buf[i] = byte(x) | 0x80; x >>= 7`). -/
def putUvarint (x : Nat) : List Nat :=
  if x < 128 then [x]
  else (x % 256 ||| 128) :: putUvarint (x >>> 7)
termination_by x
decreasing_by
  rw [Nat.shiftRight_eq_div_pow]
  exact Nat.div_lt_self (by omega) (by omega)

/-- Go `uint32` subtraction `a - b` (wrap-around modulo `2^32`). -/
def uint32Sub (a b : Nat) : Nat := (a % 2 ^ 32 + (2 ^ 32 - b % 2 ^ 32)) % 2 ^ 32

/-- The body of `toDeltas` from the conversion source: running `last`,
emit the varint of the `uint32` difference for each offset in order. -/
def toDeltasGo : List Nat → Nat → List Nat
  | [], _ => []
  | p :: ps, last => putUvarint (uint32Sub p last) ++ toDeltasGo ps p

/-- `toDeltas` from the conversion source. -/
def toDeltas (offsets : List Nat) : List Nat := toDeltasGo offsets 0

/-- Modelled from the spec: the unsigned-LEB128 varint reader used to state
the delta-decoding direction (the decoder itself is not among the source
files; the spec defines the byte form as "unsigned LEB128").  Returns the
value and the remaining bytes. -/
def readUvarint : List Nat → Option (Nat × List Nat)
  | [] => none
  | b :: rest =>
      if b < 128 then some (b, rest)
      else
        match readUvarint rest with
        | some (v, rest') => some (b % 128 + 128 * v, rest')
        | none => none

/-- Modelled from the spec: decode a delta stream by reading varints and
taking prefix sums (running total `last`); the fuel is the buffer length,
which suffices because every varint consumes at least one byte. -/
def decodeDeltasAux : Nat → Nat → List Nat → Option (List Nat)
  | _, _, [] => some []
  | 0, _, _ :: _ => none
  | fuel + 1, last, b :: rest =>
      match readUvarint (b :: rest) with
      | some (d, rest') => (decodeDeltasAux fuel (last + d) rest').map (fun l => (last + d) :: l)
      | none => none

/-- Modelled from the spec: full delta-stream decoder with running total
starting at `last`. -/
def decodeDeltas (last : Nat) (buf : List Nat) : Option (List Nat) :=
  decodeDeltasAux buf.length last buf

set_option maxRecDepth 8192 in
theorem or128_byte : ∀ a : Fin 256, (a.val ||| 128) % 128 = a.val % 128 ∧
    128 ≤ (a.val ||| 128) := by decide

theorem putUvarint_ne_nil (x : Nat) : putUvarint x ≠ [] := by
  rw [putUvarint]
  split <;> simp

theorem readUvarint_putUvarint (rest : List Nat) :
    ∀ x, readUvarint (putUvarint x ++ rest) = some (x, rest) := by
  have H : ∀ n x, x ≤ n → readUvarint (putUvarint x ++ rest) = some (x, rest) := by
    intro n
    induction n with
    | zero =>
      intro x hx
      have : x = 0 := by omega
      subst this
      rw [putUvarint]
      simp [readUvarint]
    | succ n ih =>
      intro x hx
      rw [putUvarint]
      by_cases h : x < 128
      · simp [h, readUvarint]
      · rw [if_neg h]
        have hb := or128_byte ⟨x % 256, Nat.mod_lt _ (by omega)⟩
        have hmod : (x % 256 ||| 128) % 128 = x % 128 := by
          have h1 : (x % 256 ||| 128) % 128 = (x % 256) % 128 := hb.1
          rw [h1, Nat.mod_mod_of_dvd _ (by omega)]
        have hge : ¬ (x % 256 ||| 128) < 128 := by
          have h2 : 128 ≤ x % 256 ||| 128 := hb.2
          omega
        have h128 : (2 : Nat) ^ 7 = 128 := by norm_num
        have hsh : x >>> 7 ≤ n := by
          rw [Nat.shiftRight_eq_div_pow, h128]
          have := Nat.div_lt_self (show 0 < x by omega) (show (1 : Nat) < 128 by omega)
          omega
        have hx' : x % 128 + 128 * (x >>> 7) = x := by
          rw [Nat.shiftRight_eq_div_pow, h128]
          have := Nat.div_add_mod x 128
          omega
        rw [List.cons_append]
        simp only [readUvarint]
        rw [if_neg hge, ih (x >>> 7) hsh]
        show some ((x % 256 ||| 128) % 128 + 128 * (x >>> 7), rest) = some (x, rest)
        rw [hmod, hx']
  intro x
  exact H x x le_rfl

theorem uint32Sub_eq {a b : Nat} (hle : b ≤ a) (ha : a < 2 ^ 32) :
    uint32Sub a b = a - b := by
  have hb : b % 2 ^ 32 = b := Nat.mod_eq_of_lt (by omega)
  rw [uint32Sub, hb, Nat.mod_eq_of_lt ha]
  have h1 : a + (2 ^ 32 - b) = 2 ^ 32 + (a - b) := by omega
  rw [h1, Nat.add_mod_left, Nat.mod_eq_of_lt (by omega)]

theorem decodeDeltasAux_toDeltasGo (xs : List Nat) :
    ∀ last fuel, (toDeltasGo xs last).length ≤ fuel → last ≤ 2 ^ 32 →
      List.Chain' (· ≤ ·) (last :: xs) → (∀ x ∈ xs, x < 2 ^ 32) →
      decodeDeltasAux fuel last (toDeltasGo xs last) = some xs := by
  induction xs with
  | nil =>
    intro last fuel _ _ _ _
    rw [toDeltasGo]
    cases fuel <;> rfl
  | cons p ps ih =>
    intro last fuel hfuel hlast hchain hbound
    have hle : last ≤ p := (List.chain'_cons.mp hchain).1
    have hp : p < 2 ^ 32 := hbound p (by simp)
    rw [toDeltasGo, uint32Sub_eq hle hp]
    obtain ⟨b, t, hbt⟩ : ∃ b t, putUvarint (p - last) ++ toDeltasGo ps p = b :: t := by
      cases hpe : putUvarint (p - last) with
      | nil => exact absurd hpe (putUvarint_ne_nil _)
      | cons b t' => exact ⟨b, t' ++ toDeltasGo ps p, by simp [hpe]⟩
    rw [hbt]
    have hlen : 1 ≤ (putUvarint (p - last)).length := by
      cases hpe : putUvarint (p - last) with
      | nil => exact absurd hpe (putUvarint_ne_nil _)
      | cons _ _ => simp
    have hfuel' : 1 ≤ fuel := by
      rw [toDeltasGo, uint32Sub_eq hle hp] at hfuel
      have := List.length_append (putUvarint (p - last)) (toDeltasGo ps p)
      omega
    obtain ⟨f, rfl⟩ : ∃ f, fuel = f + 1 := ⟨fuel - 1, by omega⟩
    rw [decodeDeltasAux, ← hbt, readUvarint_putUvarint]
    have hrest : (toDeltasGo ps p).length ≤ f := by
      rw [toDeltasGo, uint32Sub_eq hle hp] at hfuel
      have := List.length_append (putUvarint (p - last)) (toDeltasGo ps p)
      omega
    have hchain' : List.Chain' (· ≤ ·) (p :: ps) := (List.chain'_cons.mp hchain).2
    have hsum : last + (p - last) = p := by omega
    show (decodeDeltasAux f (last + (p - last)) (toDeltasGo ps p)).map
        (fun l => (last + (p - last)) :: l) = some (p :: ps)
    rw [hsum, ih p f hrest (by omega) hchain' (fun x hx => hbound x (by simp [hx]))]
    rfl

/-- C7: delta-encoding round-trip.  For a sorted list of `u32` offsets,
`toDeltas` is the concatenation of the LEB128 varints of the successive
differences (the first relative to 0), and decoding by reading varints and
taking prefix sums reproduces the offsets exactly. -/
theorem toDeltasGo_eq_flatMap (xs : List Nat) :
    ∀ last, List.Chain' (· ≤ ·) (last :: xs) → (∀ x ∈ xs, x < 2 ^ 32) →
      toDeltasGo xs last =
        (List.zipWith (fun a b => a - b) xs (last :: xs)).flatMap putUvarint := by
  induction xs with
  | nil => intro last _ _; rfl
  | cons p ps ih =>
    intro last hchain hbound
    have hle : last ≤ p := (List.chain'_cons.mp hchain).1
    have hp : p < 2 ^ 32 := hbound p (by simp)
    rw [toDeltasGo, uint32Sub_eq hle hp]
    have hz : List.zipWith (fun a b => a - b) (p :: ps) (last :: p :: ps) =
        (p - last) :: List.zipWith (fun a b => a - b) ps (p :: ps) := rfl
    rw [hz, List.flatMap_cons,
      ih p ((List.chain'_cons.mp hchain).2) (fun x hx => hbound x (by simp [hx]))]

theorem toDeltas_roundtrip (xs : List Nat)
    (hchain : List.Chain' (· ≤ ·) xs) (hbound : ∀ x ∈ xs, x < 2 ^ 32) :
    toDeltas xs = (List.zipWith (fun a b => a - b) xs (0 :: xs)).flatMap putUvarint ∧
    decodeDeltas 0 (toDeltas xs) = some xs := by
  have hchain0 : List.Chain' (· ≤ ·) ((0 : Nat) :: xs) := by
    cases xs with
    | nil => simp
    | cons a t => exact List.chain'_cons.mpr ⟨Nat.zero_le a, hchain⟩
  constructor
  · exact toDeltasGo_eq_flatMap xs 0 hchain0 hbound
  · exact decodeDeltasAux_toDeltasGo xs 0 _ le_rfl (by omega) hchain0 hbound

/-- Witness for C7 at the sorted offsets `[3, 7, 7, 260]`. -/
theorem toDeltas_roundtrip_witness :
    List.Chain' (· ≤ ·) ([3, 7, 7, 260] : List Nat) ∧
    (∀ x ∈ ([3, 7, 7, 260] : List Nat), x < 2 ^ 32) ∧
    (toDeltas [3, 7, 7, 260] =
      (List.zipWith (fun a b => a - b) ([3, 7, 7, 260] : List Nat)
        (0 :: [3, 7, 7, 260])).flatMap putUvarint ∧
     decodeDeltas 0 (toDeltas [3, 7, 7, 260]) = some [3, 7, 7, 260]) :=
  ⟨by norm_num [List.chain'_cons, List.chain'_singleton], by decide,
    toDeltas_roundtrip [3, 7, 7, 260]
      (by norm_num [List.chain'_cons, List.chain'_singleton]) (by decide)⟩

/-- Modelled from the spec: the query AST ("an opaque query tree" with
`And`/`Or`/`Not`/`Type` interior nodes, `RepoSet` and leaf predicates);
`qnil` models the Go `nil` query that the transform returns once an error
has been recorded. -/
inductive Q where
  | qand (cs : List Q)
  | qor (cs : List Q)
  | qnot (c : Q)
  | qtype (t : Nat) (c : Q)
  | qreposet (names : List String)
  | qsubstring (s : String)
  | qconst (b : Bool)
  | qnil

/-- The numeric tag standing for `query.TypeRepo`. -/
def typeRepo : Nat := 1

/-- The transform state threaded by `eval`: the captured `err` variable and
the instrumentation log of the children on which `List` has been called. -/
def EvalState : Type := Option String × List Q

mutual

/-- Modelled from the spec: `query.Map` — "walks the query AST with a map
transform", mapping children first and then applying the transform to the
node, threading the closure state. -/
def mapQ (f : Q → EvalState → Q × EvalState) : Q → EvalState → Q × EvalState
  | .qand cs, s =>
      let r := mapQList f cs s
      f (.qand r.1) r.2
  | .qor cs, s =>
      let r := mapQList f cs s
      f (.qor r.1) r.2
  | .qnot c, s =>
      let r := mapQ f c s
      f (.qnot r.1) r.2
  | .qtype t c, s =>
      let r := mapQ f c s
      f (.qtype t r.1) r.2
  | q, s => f q s

/-- The child-list traversal of `query.Map`, in order. -/
def mapQList (f : Q → EvalState → Q × EvalState) : List Q → EvalState → List Q × EvalState
  | [], s => ([], s)
  | c :: cs, s =>
      let r := mapQ f c s
      let rs := mapQList f cs r.2
      (r.1 :: rs.1, rs.2)

end

/-- The transform closure of `typeRepoSearcher.eval` from shards_test.go:
once `err` is set, return `nil` immediately; on a `Type(TypeRepo, child)`
node call `List(child)` and either record the error (returning `nil`) or
substitute a `RepoSet` of the returned names; leave every other node
untouched.  The log of `List` calls is instrumentation for the proofs. -/
def evalStep (listFn : Q → Except String (List String)) (q : Q) (s : EvalState) :
    Q × EvalState :=
  match s.1 with
  | some _ => (.qnil, s)
  | none =>
    match q with
    | .qtype t c =>
        if t = typeRepo then
          match listFn c with
          | .error e => (.qnil, (some e, s.2 ++ [c]))
          | .ok names => (.qreposet names, (none, s.2 ++ [c]))
        else (.qtype t c, s)
    | q => (q, s)

/-- `typeRepoSearcher.eval` from shards_test.go: run the map transform and
return the rewritten query, or the recorded error. -/
def eval (listFn : Q → Except String (List String)) (q : Q) : Except String Q :=
  let r := mapQ (evalStep listFn) q (none, [])
  match r.2.1 with
  | some e => .error e
  | none => .ok r.1

/-- The `List` calls performed by `eval`, in execution order. -/
def evalCalls (listFn : Q → Except String (List String)) (q : Q) : List Q :=
  (mapQ (evalStep listFn) q (none, [])).2.2

mutual

/-- The rewriting exactly as C9 words it: replace every `Type(TypeRepo, c)`
node by a `RepoSet` of the names `List` returns for the (already
rewritten) child; leave every other node to the structural map. -/
def substRepo (listFn : Q → Except String (List String)) : Q → Q
  | .qand cs => .qand (substRepoList listFn cs)
  | .qor cs => .qor (substRepoList listFn cs)
  | .qnot c => .qnot (substRepo listFn c)
  | .qtype t c =>
      if t = typeRepo then
        .qreposet
          (match listFn (substRepo listFn c) with
            | .ok names => names
            | .error _ => [])
      else .qtype t (substRepo listFn c)
  | q => q

/-- Child-wise `substRepo`. -/
def substRepoList (listFn : Q → Except String (List String)) : List Q → List Q
  | [] => []
  | c :: cs => substRepo listFn c :: substRepoList listFn cs

end

theorem mapQ_noerr (listFn : Q → Except String (List String))
    (hok : ∀ c, ∃ names, listFn c = .ok names) :
    ∀ q log, ∃ log', mapQ (evalStep listFn) q (none, log) =
      (substRepo listFn q, (none, log')) := by
  have H : ∀ n,
      (∀ q, sizeOf q < n → ∀ log, ∃ log', mapQ (evalStep listFn) q (none, log) =
        (substRepo listFn q, (none, log'))) ∧
      (∀ cs, sizeOf cs < n → ∀ log, ∃ log', mapQList (evalStep listFn) cs (none, log) =
        (substRepoList listFn cs, (none, log'))) := by
    intro n
    induction n with
    | zero => exact ⟨fun q hq => by omega, fun cs hcs => by omega⟩
    | succ n ih =>
      constructor
      · intro q hq log
        cases q with
        | qand cs =>
          obtain ⟨log', hl⟩ := ih.2 cs (by simp at hq; omega) log
          refine ⟨log', ?_⟩
          rw [mapQ, hl, substRepo]
          rfl
        | qor cs =>
          obtain ⟨log', hl⟩ := ih.2 cs (by simp at hq; omega) log
          refine ⟨log', ?_⟩
          rw [mapQ, hl, substRepo]
          rfl
        | qnot c =>
          obtain ⟨log', hl⟩ := ih.1 c (by simp at hq; omega) log
          refine ⟨log', ?_⟩
          rw [mapQ, hl, substRepo]
          rfl
        | qtype t c =>
          obtain ⟨log', hl⟩ := ih.1 c (by simp at hq; omega) log
          rw [mapQ, hl, substRepo]
          by_cases ht : t = typeRepo
          · obtain ⟨names, hn⟩ := hok (substRepo listFn c)
            refine ⟨log' ++ [substRepo listFn c], ?_⟩
            rw [if_pos ht, hn]
            show evalStep listFn (.qtype t (substRepo listFn c)) (none, log') = _
            rw [evalStep]
            simp only [if_pos ht, hn]
          · refine ⟨log', ?_⟩
            rw [if_neg ht]
            show evalStep listFn (.qtype t (substRepo listFn c)) (none, log') = _
            rw [evalStep]
            simp only [if_neg ht]
        | qreposet names => exact ⟨log, rfl⟩
        | qsubstring s => exact ⟨log, rfl⟩
        | qconst b => exact ⟨log, rfl⟩
        | qnil => exact ⟨log, rfl⟩
      · intro cs hcs log
        cases cs with
        | nil => exact ⟨log, rfl⟩
        | cons c cs' =>
          obtain ⟨log1, h1⟩ := ih.1 c (by simp at hcs; omega) log
          obtain ⟨log2, h2⟩ := ih.2 cs' (by simp at hcs; omega) log1
          refine ⟨log2, ?_⟩
          rw [mapQList, h1, h2, substRepoList]
  intro q log
  exact (H (sizeOf q + 1)).1 q (by omega) log

/-- The invariant maintained by the transform state: while no error is
recorded every logged `List` call succeeded; once an error is recorded the
log ends with the failing call, every earlier call succeeded, and the
recorded error is the failing call's error. -/
def CallsInv (listFn : Q → Except String (List String)) (s : EvalState) : Prop :=
  match s.1 with
  | none => ∀ c ∈ s.2, ∃ names, listFn c = .ok names
  | some e => ∃ pre cbad, s.2 = pre ++ [cbad] ∧ listFn cbad = .error e ∧
      ∀ c ∈ pre, ∃ names, listFn c = .ok names

theorem evalStep_inv (listFn : Q → Except String (List String)) (q : Q) (s : EvalState)
    (h : CallsInv listFn s) : CallsInv listFn (evalStep listFn q s).2 := by
  rcases s with ⟨err, log⟩
  cases err with
  | some e => exact h
  | none =>
    cases q with
    | qtype t c =>
      rw [evalStep]
      by_cases ht : t = typeRepo
      · simp only [if_pos ht]
        cases hl : listFn c with
        | error e =>
          refine ⟨log, c, rfl, hl, ?_⟩
          exact h
        | ok names =>
          intro c' hc'
          rcases List.mem_append.mp hc' with hmem | hmem
          · exact h c' hmem
          · rw [List.mem_singleton.mp hmem]
            exact ⟨names, hl⟩
      · simp only [if_neg ht]
        exact h
    | qand cs => exact h
    | qor cs => exact h
    | qnot c => exact h
    | qreposet names => exact h
    | qsubstring str => exact h
    | qconst b => exact h
    | qnil => exact h

theorem mapQ_inv (listFn : Q → Except String (List String)) :
    ∀ q s, CallsInv listFn s → CallsInv listFn (mapQ (evalStep listFn) q s).2 := by
  have H : ∀ n,
      (∀ q, sizeOf q < n → ∀ s, CallsInv listFn s →
        CallsInv listFn (mapQ (evalStep listFn) q s).2) ∧
      (∀ cs, sizeOf cs < n → ∀ s, CallsInv listFn s →
        CallsInv listFn (mapQList (evalStep listFn) cs s).2) := by
    intro n
    induction n with
    | zero => exact ⟨fun q hq => by omega, fun cs hcs => by omega⟩
    | succ n ih =>
      constructor
      · intro q hq s hs
        cases q with
        | qand cs =>
          rw [mapQ]
          exact evalStep_inv _ _ _ (ih.2 cs (by simp at hq; omega) s hs)
        | qor cs =>
          rw [mapQ]
          exact evalStep_inv _ _ _ (ih.2 cs (by simp at hq; omega) s hs)
        | qnot c =>
          rw [mapQ]
          exact evalStep_inv _ _ _ (ih.1 c (by simp at hq; omega) s hs)
        | qtype t c =>
          rw [mapQ]
          exact evalStep_inv _ _ _ (ih.1 c (by simp at hq; omega) s hs)
        | qreposet names => exact evalStep_inv _ _ _ hs
        | qsubstring str => exact evalStep_inv _ _ _ hs
        | qconst b => exact evalStep_inv _ _ _ hs
        | qnil => exact evalStep_inv _ _ _ hs
      · intro cs hcs s hs
        cases cs with
        | nil => exact hs
        | cons c cs' =>
          rw [mapQList]
          exact ih.2 cs' (by simp at hcs; omega) _ (ih.1 c (by simp at hcs; omega) s hs)
  intro q s hs
  exact (H (sizeOf q + 1)).1 q (by omega) s hs

/-- C9: `eval` replaces every `Type(TypeRepo, child)` node by a `RepoSet`
of exactly the names returned by `List` (on the rewritten child), leaving
all other nodes to the generic map transform; and when some `List` call
fails, `eval` returns that first error and performs no further `List`
calls (the failing call is the last one logged, every earlier one
succeeded). -/
theorem eval_typeRepo_rewrite (listFn : Q → Except String (List String)) (q : Q) :
    ((∀ c, ∃ names, listFn c = .ok names) →
      eval listFn q = .ok (substRepo listFn q)) ∧
    (∀ e, eval listFn q = .error e →
      ∃ pre cbad, evalCalls listFn q = pre ++ [cbad] ∧ listFn cbad = .error e ∧
        ∀ c ∈ pre, ∃ names, listFn c = .ok names) := by
  constructor
  · intro hok
    obtain ⟨log', hmap⟩ := mapQ_noerr listFn hok q []
    rw [eval, hmap]
  · intro e he
    have hinv := mapQ_inv listFn q (none, []) (by intro c hc; cases hc)
    rw [eval] at he
    rw [evalCalls]
    cases hfin : (mapQ (evalStep listFn) q (none, [])).2.1 with
    | none =>
      rw [hfin] at he
      cases he
    | some e' =>
      rw [hfin] at he
      have hee : e' = e := by
        cases he
        rfl
      subst hee
      rw [CallsInv, hfin] at hinv
      exact hinv

/-- Witness for C9: an all-ok `List` on a query with one type-repo node
(rewrite case), and an always-failing `List` (error case). -/
theorem eval_typeRepo_rewrite_witness :
    eval (fun _ => .ok ["r1", "r2"]) (.qand [.qtype typeRepo (.qsubstring "x"), .qsubstring "y"])
      = .ok (substRepo (fun _ => .ok ["r1", "r2"])
          (.qand [.qtype typeRepo (.qsubstring "x"), .qsubstring "y"])) ∧
    (∃ pre cbad,
      evalCalls (fun _ => .error "boom") (.qtype typeRepo (.qsubstring "x")) = pre ++ [cbad] ∧
      (fun _ => (.error "boom" : Except String (List String))) cbad = .error "boom" ∧
      ∀ c ∈ pre, ∃ names,
        (fun _ => (.error "boom" : Except String (List String))) c = .ok names) :=
  ⟨(eval_typeRepo_rewrite (fun _ => .ok ["r1", "r2"])
      (.qand [.qtype typeRepo (.qsubstring "x"), .qsubstring "y"])).1
      (fun _ => ⟨["r1", "r2"], rfl⟩),
   (eval_typeRepo_rewrite (fun _ => .error "boom")
      (.qtype typeRepo (.qsubstring "x"))).2 "boom" rfl⟩

end Zoekt
